import Mathlib

/-!
Verification of the document reconstruction engine of the shamela-extractor
repository (`build_jsons.py`), as a shallow embedding: Python dictionaries
become ordered association lists (Python dicts iterate in insertion order),
pandas/SQLite rows become explicit records, and the recursive
table-of-contents construction is given an explicit recursion budget
(`fuel`) so that non-termination of the source is observable as `none`.
-/

namespace Shamela

/-- Python ASCII whitespace as recognized by `str.strip()`. -/
def isPySpace (c : Char) : Bool :=
  c == ' ' || c == '\t' || c == '\n' || c == '\r' || c == '\x0B' || c == '\x0C'

/-- Strip Python whitespace from both ends of a character list. -/
def stripList (l : List Char) : List Char :=
  ((l.dropWhile isPySpace).reverse.dropWhile isPySpace).reverse

/-- Python `str.strip()`, used throughout `build_jsons.py` on bodies, feet,
author tokens and title texts. -/
def pyStrip (s : String) : String := String.mk (stripList s.data)

/-- Python `dict.get(k, d)` over a string-keyed mapping modelled as an
association list in insertion order. -/
def dictGetD (m : List (String × String)) (k d : String) : String :=
  match m.find? (fun p => p.1 == k) with
  | some p => p.2
  | none => d

/-- Membership-based `set.add` for the `processed_titles` set of
`_build_table_of_contents`. -/
def setAdd (s : List String) (x : String) : List String :=
  if x ∈ s then s else x :: s

/-! ## Footnote separator (`_separate_body_footnote`, build_jsons.py 586-618)

The regex `_{5,}` searched by `re.search` and split by `re.split(pat, foot, 1)`
matches the first maximal run of five or more consecutive underscores:
everything before the run is `parts[0]`, everything after the whole
(greedily consumed) run is `parts[1]`. -/

/-- Length of the leading run of underscores. -/
def runLen (l : List Char) : Nat := (l.takeWhile (fun c => c == '_')).length

/-- Split a character list at the first run of five or more consecutive
underscores, mirroring `re.split(r'_\x7b5,\x7d', foot, 1)`; `none` mirrors
`re.search` finding no separator. -/
def splitFoot : List Char → Option (List Char × List Char)
  | [] => none
  | c :: rest =>
    if 5 ≤ runLen (c :: rest) then
      some ([], (c :: rest).dropWhile (fun x => x == '_'))
    else
      match splitFoot rest with
      | none => none
      | some (a, b) => some (c :: a, b)

/-- Whether a character list contains a run of five or more underscores
(the condition under which `re.search(r'_\x7b5,\x7d', foot)` succeeds). -/
def hasRun5 : List Char → Bool
  | [] => false
  | c :: rest => decide (5 ≤ runLen (c :: rest)) || hasRun5 rest

/-- `_separate_body_footnote(body, foot)` (build_jsons.py 586-618): both
fields are stripped; a non-empty body is returned with the stripped foot;
an empty body promotes the foot, splitting it at the first run of five or
more underscores when one exists.  (The `str(...)`/`pd.isna` coercions for
null fields are modelled by taking string inputs.) -/
def separateBodyFootnote (body foot : String) : String × String :=
  let b := pyStrip body
  let f := pyStrip foot
  if b ≠ "" then (b, f)
  else if f ≠ "" then
    match splitFoot f.data with
    | some (a, c) => (pyStrip (String.mk a), pyStrip (String.mk c))
    | none => (f, "")
  else (b, f)

/-! ## Author id resolution (`_build_book_json`, build_jsons.py 413-426) -/

/-- Python `str.split(',')`. -/
def splitOnComma : List Char → List (List Char)
  | [] => [[]]
  | c :: rest =>
    if c == ',' then [] :: splitOnComma rest
    else
      match splitOnComma rest with
      | [] => [[c]]
      | h :: t => (c :: h) :: t

/-- Parse the comma-separated `authors` field: strip it, reject the
placeholder values, split on commas, strip each token and drop empties
(build_jsons.py 415, 419-422). -/
def parseAuthorIds (s : String) : List String :=
  let t := pyStrip s
  if t ≠ "" ∧ t ≠ "[]" ∧ t ≠ "None" then
    ((splitOnComma t.data).map (fun l => pyStrip (String.mk l))).filter
      (fun a => a ≠ "")
  else []

/-- Append the main author id when it is truthy (non-empty in the string
model) and not already present (build_jsons.py 424-426). -/
def buildAuthorIds (authorsField mainAuthor : String) : List String :=
  let ids := parseAuthorIds authorsField
  if mainAuthor ≠ "" ∧ mainAuthor ∉ ids then ids ++ [mainAuthor] else ids

/-! ## Text normalizer (`_process_text`, build_jsons.py 479-513)

Each `re.sub` pass is modelled by a left-to-right scanner `reSub step`:
at each position `step` either recognizes a (non-empty) match, yielding the
replacement text and the remainder after the match — scanning resumes after
the replacement, which is not rescanned, exactly like `re.sub` — or the
current character is kept. -/

/-- `matchesPre p l` : `p` is a leading segment of `l`. -/
def matchesPre : List Char → List Char → Bool
  | [], _ => true
  | _ :: _, [] => false
  | a :: as, b :: bs => a == b && matchesPre as bs

/-- First occurrence of the literal `pat` inside `l`: the text before the
occurrence and the text after it. -/
def findSub (pat : List Char) : List Char → Option (List Char × List Char)
  | [] => none
  | c :: rest =>
    if matchesPre pat (c :: rest) then some ([], (c :: rest).drop pat.length)
    else
      match findSub pat rest with
      | none => none
      | some (a, b) => some (c :: a, b)

/-- Fuel-indexed scanner; fuel is initialized to the list length by `reSub`
and only consumed one unit per character position, so it never runs out for
steps that consume at least one character per match (all steps below do,
which the inner guard also enforces). -/
def subScanF (step : List Char → Option (List Char × List Char)) :
    Nat → List Char → List Char
  | 0, l => l
  | _ + 1, [] => []
  | f + 1, c :: rest =>
    match step (c :: rest) with
    | some (rep, rest') =>
      if rest'.length ≤ rest.length then rep ++ subScanF step f rest'
      else c :: subScanF step f rest
    | none => c :: subScanF step f rest

/-- `re.sub`-style global substitution driven by a head-matching `step`. -/
def reSub (step : List Char → Option (List Char × List Char))
    (l : List Char) : List Char :=
  subScanF step l.length l

/-- The single-quote character, written by code point to keep the source
free of quote literals. -/
def sq : Char := Char.ofNat 39

def isQuoteChar (c : Char) : Bool := c == '"' || c == sq

/-- Step for `re.sub(r'<img[^>]*/?>', '', text)` (build_jsons.py 489):
`<img` followed by anything up to the first `>` is deleted. -/
def imgStep : List Char → Option (List Char × List Char) := fun l =>
  if matchesPre "<img".data l then
    match findSub ['>'] (l.drop 4) with
    | some (_, after) => some ([], after)
    | none => none
  else none

/-- Step for the title-span rewriting pass (build_jsons.py 491-501):
`<span data-type=['"]title['"] id=toc-(\d+)>([\s\S]*?)</span>` becomes
`<title id=N parent=P>content</title>` where `P` is the parent looked up in
the title hierarchy with default sentinel `"0"`.  The lazy inner group is
the text up to the first `</span>`. -/
def titleSpanStep (hier : List (String × String)) :
    List Char → Option (List Char × List Char) := fun l =>
  if matchesPre "<span data-type=".data l then
    match l.drop 16 with
    | [] => none
    | q1 :: r1 =>
      if isQuoteChar q1 && matchesPre "title".data r1 then
        match r1.drop 5 with
        | [] => none
        | q2 :: r2 =>
          if isQuoteChar q2 && matchesPre " id=toc-".data r2 then
            let r3 := r2.drop 8
            let ds := r3.takeWhile Char.isDigit
            if ds.isEmpty then none
            else
              match r3.drop ds.length with
              | c3 :: r4 =>
                if c3 = '>' then
                  match findSub "</span>".data r4 with
                  | some (content, after) =>
                    some ("<title id=".data ++ ds ++ " parent=".data ++
                          (dictGetD hier (String.mk ds) "0").data ++ ['>'] ++
                          content ++ "</title>".data, after)
                  | none => none
                else none
              | [] => none
          else none
      else none
  else none

/-- Step for `re.sub(r'<span[\s\S]*?>([\s\S]*?)</span>', r'\1', text)`
(build_jsons.py 504): the lazy groups reach to the first `>` and to the
first `</span>` after it; the tag pair is dropped and the content kept. -/
def otherSpanStep : List Char → Option (List Char × List Char) := fun l =>
  if matchesPre "<span".data l then
    match findSub ['>'] (l.drop 5) with
    | some (_, r1) =>
      match findSub "</span>".data r1 with
      | some (content, after) => some (content, after)
      | none => none
    | none => none
  else none

/-- Step for `re.sub(r'<title[^>]*>([\s\S]*?)</title>', r'\1', text)`
(build_jsons.py 509), applied only in TOC mode. -/
def titleTagStep : List Char → Option (List Char × List Char) := fun l =>
  if matchesPre "<title".data l then
    match findSub ['>'] (l.drop 6) with
    | some (_, r1) =>
      match findSub "</title>".data r1 with
      | some (content, after) => some (content, after)
      | none => none
    | none => none
  else none

/-- Step for `re.sub(r'<[^>]+>', '', text)` (build_jsons.py 511): any tag
with at least one non-`>` character between the brackets is deleted. -/
def anyTagStep : List Char → Option (List Char × List Char) := fun l =>
  match l with
  | c :: rest =>
    if c = '<' then
      match findSub ['>'] rest with
      | some (mid, after) => if mid.isEmpty then none else some ([], after)
      | none => none
    else none
  | [] => none

/-- `_process_text(text, title_hierarchy)` (build_jsons.py 479-513): empty
input short-circuits; carriage returns become newlines; image tags are
removed; title spans are rewritten; remaining spans are unwrapped; in TOC
mode the title tags and then all remaining tags are stripped. -/
def processText (generate_toc : Bool) (hier : List (String × String))
    (text : String) : String :=
  if text = "" then ""
  else
    let t1 := text.data.map (fun c => if c == '\r' then '\n' else c)
    let t2 := reSub imgStep t1
    let t3 := reSub (titleSpanStep hier) t2
    let t4 := reSub otherSpanStep t3
    let t5 := if generate_toc then reSub anyTagStep (reSub titleTagStep t4)
              else t4
    String.mk t5

/-! ## Table-of-contents builder (`_build_table_of_contents`,
`_find_title_children`, `_mark_children_processed`, build_jsons.py 515-584)

The Python recursion has no cycle guard, so both recursive helpers take a
recursion budget `fuel` counting the remaining nesting depth: a result of
`none` means the budget was exhausted, i.e. the source recursion would have
descended deeper (and, on inputs where no budget suffices, recursed
forever). -/

/-- A node of the produced table of contents: `{"page": ..., "title": ...,
"chapters": [...]}` (build_jsons.py 540-544, 565-569). -/
inductive TocEntry where
  | mk (page : String) (title : String) (chapters : List TocEntry)

def TocEntry.page : TocEntry → String
  | .mk p _ _ => p

def TocEntry.title : TocEntry → String
  | .mk _ t _ => t

def TocEntry.chapters : TocEntry → List TocEntry
  | .mk _ _ c => c

mutual
/-- All heading texts occurring anywhere in a TOC entry (the node's own
title followed by those of its descendants). -/
def titlesOf : TocEntry → List String
  | .mk _ t c => t :: listTitles c

/-- All heading texts occurring anywhere in a forest of TOC entries. -/
def listTitles : List TocEntry → List String
  | [] => []
  | e :: rest => titlesOf e ++ listTitles rest
end

/-- `_find_title_children(parent_id, ...)` (build_jsons.py 558-577): collect,
in `title_data` iteration order, every title whose resolved parent equals
`pid`, each with its page locator (default page `"1"`), trimmed text, and
recursively collected grandchildren. -/
def fch (hier tdata tpm : List (String × String)) (book : String) :
    Nat → String → Option (List TocEntry)
  | 0, _ => none
  | f + 1, pid =>
    tdata.foldr
      (fun t acc =>
        match acc with
        | none => none
        | some rest =>
          if dictGetD hier t.1 "0" = pid then
            match fch hier tdata tpm book f t.1 with
            | none => none
            | some grand =>
              some (TocEntry.mk (book ++ "/" ++ dictGetD tpm t.1 "1")
                      (pyStrip t.2) grand :: rest)
          else some rest)
      (some [])

/-- `_mark_children_processed(parent_id, ...)` (build_jsons.py 579-584):
walk the hierarchy keys in order, adding every title whose parent is `pid`
to the processed set and recursing into it before continuing. -/
def mcp (hier : List (String × String)) :
    Nat → String → List String → Option (List String)
  | 0, _, _ => none
  | f + 1, pid, processed =>
    hier.foldl
      (fun acc t =>
        match acc with
        | none => none
        | some proc =>
          if dictGetD hier t.1 "0" = pid then
            mcp hier f t.1 (setAdd proc t.1)
          else some proc)
      (some processed)

/-- The main loop of `_build_table_of_contents` (build_jsons.py 529-556):
iterate the title data in order, skipping processed titles, emitting a root
node (with its recursively collected children) for every title whose
resolved parent is the sentinel `"0"`, then marking its descendants
processed. -/
def tocLoop (hier tdata tpm : List (String × String)) (book : String)
    (fuel : Nat) :
    List (String × String) → List String → Option (List TocEntry)
  | [], _ => some []
  | t :: rest, processed =>
    if t.1 ∈ processed then tocLoop hier tdata tpm book fuel rest processed
    else if dictGetD hier t.1 "0" = "0" then
      match fch hier tdata tpm book fuel t.1 with
      | none => none
      | some children =>
        match mcp hier fuel t.1 (setAdd processed t.1) with
        | none => none
        | some processed' =>
          match tocLoop hier tdata tpm book fuel rest processed' with
          | none => none
          | some more =>
            some (TocEntry.mk (book ++ "/" ++ dictGetD tpm t.1 "1")
                    (pyStrip t.2) children :: more)
    else tocLoop hier tdata tpm book fuel rest processed

/-- `_build_table_of_contents(book_id, title_hierarchy, ...)`
(build_jsons.py 515-556).  Result `none` = the recursion budget was
exhausted; `some none` = Python returned `None` (TOC mode off, or no title
data); `some (some items)` = Python returned the list `items`.
`title_data` and `title_page_mapping` are the in-memory contents produced
by `_load_title_data` and `_build_title_page_mapping_from_sqlite`. -/
def buildTableOfContents (fuel : Nat) (generate_toc : Bool) (book : String)
    (hier tdata tpm : List (String × String)) :
    Option (Option (List TocEntry)) :=
  if ¬ generate_toc then some none
  else if tdata.isEmpty then some none
  else
    match tocLoop hier tdata tpm book fuel tdata [] with
    | none => none
    | some items => some (some items)

/-! ## Page records and document assembly (`_build_book_json`,
build_jsons.py 360-477) -/

/-- One row of the book-content CSV: `PageID`, `body`, `foot`
(string-coerced; missing/NaN fields arrive as `""`). -/
structure PageRow where
  pageID : String
  body : String
  foot : String
deriving DecidableEq

/-- The `page` value of a structure row: the key may be absent
(`structure.get('page', page_id)` then falls back to the page id), present
but NaN (rendered `""`), or a value (already string-rendered; the
float-to-int coercion of build_jsons.py 388-389 is pre-applied). -/
inductive PageField where
  | absent
  | nan
  | val (s : String)
deriving DecidableEq

/-- One row of the per-book `page` structure table: `part` (with `none`
collapsed to `""` by the `or ''` idiom of build_jsons.py 383) and `page`. -/
structure StructEntry where
  part : Option String
  page : PageField
deriving DecidableEq

/-- A page object of the output JSON (build_jsons.py 391-397);
`original_body = none` models the key having been deleted
(build_jsons.py 449-452). -/
structure PageData where
  page_id : String
  page_number : String
  body : String
  footnote : String
  original_body : Option String
deriving DecidableEq

/-- A `{"part": ..., "pages": [...]}` group (build_jsons.py 402-407). -/
structure Part where
  part : String
  pages : List PageData
deriving DecidableEq

/-- The assembled book document, restricted to the fields the verified
claims are about; the remaining metadata fields of build_jsons.py 455-471
are direct copies of the inputs.  `table_of_contents = none` models the key
being absent. -/
structure BookJson where
  book_id : String
  authors : List String
  parts : List Part
  table_of_contents : Option (List TocEntry)

def dictFindStruct (m : List (String × StructEntry)) (k : String) :
    Option StructEntry :=
  match m.find? (fun p => p.1 == k) with
  | some p => some p.2
  | none => none

/-- `part = structure.get('part', '') or ''` (build_jsons.py 383). -/
def partKey (pstruct : List (String × StructEntry)) (pid : String) : String :=
  match dictFindStruct pstruct pid with
  | none => ""
  | some st =>
    match st.part with
    | none => ""
    | some s => s

/-- `page_number = structure.get('page', page_id)` with the `pd.isna`
handling of build_jsons.py 384-389. -/
def pageNumberOf (pstruct : List (String × StructEntry)) (pid : String) :
    String :=
  match dictFindStruct pstruct pid with
  | none => pid
  | some st =>
    match st.page with
    | .absent => pid
    | .nan => ""
    | .val s => s

/-- Build one page object (build_jsons.py 367-397): separate body/footnote,
remember the separated body as `original_body`, normalize both texts, and
resolve part and page number from the structure lookup. -/
def mkPageData (generate_toc : Bool) (hier : List (String × String))
    (pstruct : List (String × StructEntry)) (row : PageRow) : PageData :=
  let sep := separateBodyFootnote row.body row.foot
  { page_id := row.pageID
    page_number := pageNumberOf pstruct row.pageID
    body := processText generate_toc hier sep.1
    footnote := processText generate_toc hier sep.2
    original_body := some sep.1 }

/-- Append a value to its part group, creating the group at the end on
first sight (`defaultdict(list)` + insertion-ordered dict iteration,
build_jsons.py 365-407). -/
def insertPage {α : Type} (groups : List (String × List α)) (k : String)
    (v : α) : List (String × List α) :=
  match groups with
  | [] => [(k, [v])]
  | (k', vs) :: rest =>
    if k' = k then (k', vs ++ [v]) :: rest
    else (k', vs) :: insertPage rest k v

/-- Group an ordered sequence of keyed records, preserving first-seen group
order and intra-group record order. -/
def groupByPart {α : Type} (pages : List (String × α)) :
    List (String × List α) :=
  pages.foldl (fun g p => insertPage g p.1 p.2) []

/-- `del page['original_body']` (build_jsons.py 449-452). -/
def clearOriginal (p : PageData) : PageData := { p with original_body := none }

/-- `_build_book_json` (build_jsons.py 360-477) restricted to the verified
fields: build the per-part page groups, resolve the ordered author id list,
optionally build the table of contents (`none` overall when its recursion
budget runs out), remove the transient `original_body` key from every page,
and attach `table_of_contents` only when the TOC value is truthy (a
non-empty list; both `None` and `[]` leave the key absent). -/
def buildBookJson (fuel : Nat) (generate_toc : Bool) (book_id : String)
    (authorsField mainAuthor : String) (content : List PageRow)
    (pstruct : List (String × StructEntry))
    (hier tdata tpm : List (String × String)) : Option BookJson :=
  match buildTableOfContents fuel generate_toc book_id hier tdata tpm with
  | none => none
  | some toc =>
    let entries := content.map
      (fun row => (partKey pstruct row.pageID,
                   mkPageData generate_toc hier pstruct row))
    let parts := (groupByPart entries).map
      (fun g => ({ part := g.1, pages := g.2.map clearOriginal } : Part))
    some
      { book_id := book_id
        authors := buildAuthorIds authorsField mainAuthor
        parts := parts
        table_of_contents :=
          match toc with
          | none => none
          | some items => if items.isEmpty then none else some items }

/-- First-seen deduplication of a key sequence (the order in which a
Python dict built by repeated insertion iterates its keys). -/
def firstSeen (seen : List String) : List String → List String
  | [] => []
  | k :: ks =>
    if k ∈ seen then firstSeen seen ks else k :: firstSeen (k :: seen) ks

/-! ## Lemmas about the footnote separator -/

theorem takeWhile_append_stable {α : Type} (p : α → Bool) (l X : List α)
    (h : ∃ d ∈ l, p d = false) :
    (l ++ X).takeWhile p = l.takeWhile p := by
  induction l with
  | nil => obtain ⟨d, hd, _⟩ := h; cases hd
  | cons c l ih =>
    by_cases hc : p c = true
    · simp only [List.cons_append, List.takeWhile_cons, hc]
      obtain ⟨d, hd, hdp⟩ := h
      rcases List.mem_cons.mp hd with rfl | hd'
      · rw [hc] at hdp; cases hdp
      · rw [ih ⟨d, hd', hdp⟩]
    · simp only [Bool.not_eq_true] at hc
      simp [List.takeWhile_cons, hc]

theorem takeWhile_replicate_underscore (n : Nat) (post : List Char)
    (hp : post.head? ≠ some '_') :
    (List.replicate n '_' ++ post).takeWhile (fun c => c == '_') =
      List.replicate n '_' := by
  induction n with
  | zero =>
    cases post with
    | nil => rfl
    | cons c t =>
      have hc : c ≠ '_' := by
        intro h; exact hp (by simp [h])
      simp [List.takeWhile_cons, hc]
  | succ n ih => simpa [List.replicate_succ, List.takeWhile_cons] using ih

theorem dropWhile_replicate_underscore (n : Nat) (post : List Char)
    (hp : post.head? ≠ some '_') :
    (List.replicate n '_' ++ post).dropWhile (fun c => c == '_') = post := by
  induction n with
  | zero =>
    cases post with
    | nil => rfl
    | cons c t =>
      have hc : c ≠ '_' := by
        intro h; exact hp (by simp [h])
      simp [List.dropWhile_cons, hc]
  | succ n ih => simpa [List.replicate_succ, List.dropWhile_cons] using ih

theorem exists_non_underscore (l : List Char) (hne : l ≠ [])
    (hl : l.getLast? ≠ some '_') : ∃ d ∈ l, (d == '_') = false := by
  have hs : l.getLast?.isSome = true := List.getLast?_isSome.mpr hne
  obtain ⟨x, hx⟩ := Option.isSome_iff_exists.mp hs
  refine ⟨x, ?_, ?_⟩
  · exact List.mem_of_mem_getLast? hx
  · have : x ≠ '_' := by intro h; exact hl (h ▸ hx)
    simpa using this

/-- `splitFoot` splits exactly at the first maximal run of five or more
underscores: if `pre` holds no such run and does not end with an
underscore, and `post` does not start with one, the split of
`pre ++ '_'*n ++ post` (with `n ≥ 5`) is `(pre, post)`. -/
theorem splitFoot_append (pre post : List Char) (n : Nat) (h5 : 5 ≤ n)
    (hpre : hasRun5 pre = false) (hlast : pre.getLast? ≠ some '_')
    (hpost : post.head? ≠ some '_') :
    splitFoot (pre ++ List.replicate n '_' ++ post) = some (pre, post) := by
  induction pre with
  | nil =>
    obtain ⟨m, rfl⟩ : ∃ m, n = m + 1 := ⟨n - 1, by omega⟩
    rw [List.nil_append, List.replicate_succ, List.cons_append, splitFoot]
    have hrun : runLen ('_' :: (List.replicate m '_' ++ post)) = m + 1 := by
      show (List.takeWhile (fun c => c == '_')
        ('_' :: (List.replicate m '_' ++ post))).length = m + 1
      rw [← List.cons_append, ← List.replicate_succ,
        takeWhile_replicate_underscore (m + 1) post hpost]
      simp
    rw [if_pos (by omega : 5 ≤ runLen ('_' :: (List.replicate m '_' ++ post)))]
    rw [show '_' :: (List.replicate m '_' ++ post) =
        List.replicate (m + 1) '_' ++ post by simp [List.replicate_succ],
      dropWhile_replicate_underscore (m + 1) post hpost]
  | cons c pre' ih =>
    have hne : (c :: pre') ≠ [] := by simp
    have hmem : ∃ d ∈ c :: pre', (d == '_') = false :=
      exists_non_underscore (c :: pre') hne hlast
    have hstable : runLen (c :: (pre' ++ (List.replicate n '_' ++ post))) =
        runLen (c :: pre') := by
      unfold runLen
      rw [show c :: (pre' ++ (List.replicate n '_' ++ post)) =
        (c :: pre') ++ (List.replicate n '_' ++ post) by simp]
      rw [takeWhile_append_stable _ (c :: pre') _ hmem]
    have hr5 : runLen (c :: pre') < 5 := by
      unfold hasRun5 at hpre
      rcases Bool.or_eq_false_iff.mp hpre with ⟨h1, _⟩
      simpa using of_decide_eq_false h1
    have hpre' : hasRun5 pre' = false := by
      unfold hasRun5 at hpre
      rcases pre' with _ | ⟨d, t⟩
      · rfl
      · exact (Bool.or_eq_false_iff.mp hpre).2
    have hlast' : pre'.getLast? ≠ some '_' := by
      rcases pre' with _ | ⟨d, t⟩
      · simp
      · rwa [List.getLast?_cons_cons] at hlast
    have hrec := ih hpre' hlast'
    rw [List.append_assoc] at hrec
    simp only [List.cons_append, List.append_assoc]
    rw [splitFoot,
      if_neg (by omega :
        ¬ 5 ≤ runLen (c :: (pre' ++ (List.replicate n '_' ++ post)))),
      hrec]

/-- C4 (amended): when the stripped body is non-empty, footnote separation
returns the stripped body and the stripped foot. -/
theorem c4_body_present (body foot : String) (h : pyStrip body ≠ "") :
    separateBodyFootnote body foot = (pyStrip body, pyStrip foot) := by
  unfold separateBodyFootnote
  simp [h]

/-- C4 counterexample: the claim promises the raw body and raw foot back
unchanged whenever the raw body is non-empty, but the code strips both:
raw body `" H"` (non-empty) comes back as `"H"`. -/
theorem c4_counterexample :
    ¬ (separateBodyFootnote " H" " x " = (" H", " x ")) := by decide

theorem c4_witness :
    pyStrip "Hello " ≠ "" ∧
      separateBodyFootnote "Hello " " note " = ("Hello", "note") :=
  ⟨by decide, c4_body_present "Hello " " note " (by decide)⟩

/-- C5: for a page with (effectively) empty body whose foot contains a run
of five or more underscores, the separator splits at the first such run:
the trimmed text before it becomes the body and the trimmed text after it
the footnote, regardless of later runs.  The decomposition hypotheses say
exactly that `'_'*n` is the first maximal run of length at least 5 in the
stripped foot. -/
theorem c5_split_first_run (body foot : String) (pre post : List Char)
    (n : Nat) (h5 : 5 ≤ n) (hb : pyStrip body = "")
    (hf : (pyStrip foot).data = pre ++ List.replicate n '_' ++ post)
    (hpre : hasRun5 pre = false) (hlast : pre.getLast? ≠ some '_')
    (hpost : post.head? ≠ some '_') :
    separateBodyFootnote body foot =
      (pyStrip (String.mk pre), pyStrip (String.mk post)) := by
  have hfne : pyStrip foot ≠ "" := by
    intro h
    rw [h] at hf
    have : (List.replicate n '_').length = 0 := by
      have := congrArg List.length hf
      simp at this
      omega
    simp at this
    omega
  unfold separateBodyFootnote
  rw [if_neg (by simp [hb]), if_pos hfne, hf,
    splitFoot_append pre post n h5 hpre hlast hpost]

theorem c5_witness :
    separateBodyFootnote "" "Line A_____Line B___Line C" =
      ("Line A", "Line B___Line C") :=
  c5_split_first_run "" "Line A_____Line B___Line C"
    "Line A".data "Line B___Line C".data 5 (by decide) (by decide)
    (by decide) (by decide) (by decide) (by decide)

/-- C6: the ordered author-id list is the comma-split, stripped,
empty-token-free list of the `authors` field, with the main-author id
appended exactly when it is non-empty and not already present; in
particular `"5, 7"` with main author `7` gives `["5", "7"]` with no
duplicate, and `""` with main author `9` gives `["9"]`. -/
theorem c6_author_ids :
    (∀ f m : String,
      buildAuthorIds f m =
        parseAuthorIds f ++
          (if m ≠ "" ∧ m ∉ parseAuthorIds f then [m] else [])) ∧
    buildAuthorIds "5, 7" "7" = ["5", "7"] ∧
    buildAuthorIds "" "9" = ["9"] ∧
    (buildAuthorIds "5, 7" "7").Nodup := by
  refine ⟨fun f m => ?_, by decide, by decide, by decide⟩
  unfold buildAuthorIds
  by_cases h : m ≠ "" ∧ m ∉ parseAuthorIds f
  · simp [h]
  · simp [h]

/-! ## Lemmas about page grouping (`pages_by_part`) -/

theorem insertPage_of_mem {α : Type} (g : List (String × List α))
    (k : String) (v : α) (hnd : (g.map Prod.fst).Nodup)
    (h : k ∈ g.map Prod.fst) :
    insertPage g k v =
      g.map (fun kv => if kv.1 = k then (kv.1, kv.2 ++ [v]) else kv) := by
  induction g with
  | nil => cases h
  | cons kv g ih =>
    obtain ⟨k₀, vs⟩ := kv
    rw [List.map_cons] at hnd
    by_cases hk : k₀ = k
    · subst hk
      simp only [insertPage, if_pos rfl, List.map_cons]
      have hmap : g.map (fun kv => if kv.1 = k₀ then (kv.1, kv.2 ++ [v]) else kv) =
          g.map id := by
        refine List.map_congr_left (fun kv hkv => ?_)
        have hne : kv.1 ≠ k₀ := by
          intro he
          have hmem : kv.1 ∈ g.map Prod.fst :=
            List.mem_map_of_mem Prod.fst hkv
          rw [he] at hmem
          exact (List.nodup_cons.mp hnd).1 hmem
        simp [hne]
      simp [hmap]
    · have hg : k ∈ g.map Prod.fst := by
        rcases List.mem_cons.mp h with he | hg
        · exact absurd he.symm hk
        · exact hg
      simp only [insertPage, if_neg hk, List.map_cons]
      rw [ih (List.nodup_cons.mp hnd).2 hg]

theorem insertPage_of_not_mem {α : Type} (g : List (String × List α))
    (k : String) (v : α) (h : k ∉ g.map Prod.fst) :
    insertPage g k v = g ++ [(k, [v])] := by
  induction g with
  | nil => rfl
  | cons kv g ih =>
    have hk : kv.1 ≠ k := by
      intro he
      exact h (he ▸ List.mem_map_of_mem Prod.fst (List.mem_cons_self kv g))
    have hg : k ∉ g.map Prod.fst := fun hm => h (List.mem_cons_of_mem _ hm)
    simp only [insertPage, if_neg hk, List.cons_append, ih hg]

theorem insertPage_keys {α : Type} (g : List (String × List α)) (k : String)
    (v : α) (hnd : (g.map Prod.fst).Nodup) :
    (insertPage g k v).map Prod.fst =
      if k ∈ g.map Prod.fst then g.map Prod.fst
      else g.map Prod.fst ++ [k] := by
  by_cases h : k ∈ g.map Prod.fst
  · rw [if_pos h, insertPage_of_mem g k v hnd h, List.map_map]
    refine List.map_congr_left (fun kv _ => ?_)
    by_cases hk : kv.1 = k <;> simp [hk]
  · rw [if_neg h, insertPage_of_not_mem g k v h]
    simp

theorem firstSeen_not_mem (l : List String) :
    ∀ (seen : List String) (x : String), x ∈ firstSeen seen l → x ∉ seen := by
  induction l with
  | nil => intro seen x h; cases h
  | cons k ks ih =>
    intro seen x h
    rw [firstSeen] at h
    by_cases hk : k ∈ seen
    · exact ih seen x (by rwa [if_pos hk] at h)
    · rw [if_neg hk] at h
      rcases List.mem_cons.mp h with rfl | h'
      · exact hk
      · exact fun hx => ih (k :: seen) x h' (List.mem_cons_of_mem _ hx)

theorem firstSeen_congr (l : List String) :
    ∀ (s t : List String), (∀ x, x ∈ s ↔ x ∈ t) →
      firstSeen s l = firstSeen t l := by
  induction l with
  | nil => intro s t _; rfl
  | cons k ks ih =>
    intro s t hst
    rw [firstSeen, firstSeen]
    by_cases hk : k ∈ s
    · rw [if_pos hk, if_pos ((hst k).mp hk)]
      exact ih s t hst
    · rw [if_neg hk, if_neg (fun h => hk ((hst k).mpr h))]
      rw [ih (k :: s) (k :: t) (fun x => by simp [hst x])]

/-- The accumulator-generalized characterization of the `pages_by_part`
construction. -/
theorem foldl_insert_spec {α : Type} (pages : List (String × α)) :
    ∀ (g : List (String × List α)), (g.map Prod.fst).Nodup →
      pages.foldl (fun acc p => insertPage acc p.1 p.2) g =
        g.map (fun kv =>
          (kv.1, kv.2 ++ (pages.filter (fun p => p.1 == kv.1)).map Prod.snd))
        ++ (firstSeen (g.map Prod.fst) (pages.map Prod.fst)).map
            (fun k => (k, (pages.filter (fun p => p.1 == k)).map Prod.snd)) := by
  induction pages with
  | nil =>
    intro g _
    simp [firstSeen]
  | cons p rest ih =>
    obtain ⟨k, v⟩ := p
    intro g hnd
    rw [List.foldl_cons]
    by_cases hk : k ∈ g.map Prod.fst
    · have hkeys : (insertPage g k v).map Prod.fst = g.map Prod.fst := by
        rw [insertPage_keys g k v hnd, if_pos hk]
      rw [ih (insertPage g k v) (hkeys ▸ hnd)]
      rw [hkeys, insertPage_of_mem g k v hnd hk, List.map_map]
      have hmap : ∀ kv ∈ g,
          ((fun kv =>
            (kv.1, kv.2 ++ (rest.filter (fun p => p.1 == kv.1)).map Prod.snd)) ∘
            (fun kv => if kv.1 = k then (kv.1, kv.2 ++ [v]) else kv)) kv =
          (kv.1, kv.2 ++
            (((k, v) :: rest).filter (fun p => p.1 == kv.1)).map Prod.snd) := by
        intro kv _
        by_cases he : kv.1 = k
        · simp [he, List.filter_cons, List.append_assoc]
        · have : (k == kv.1) = false := by
            simp [BEq.comm]
            exact fun h => he h.symm
          simp [he, List.filter_cons, this]
      rw [List.map_congr_left hmap]
      have htail : (firstSeen (g.map Prod.fst) (rest.map Prod.fst)).map
            (fun k' => (k', (rest.filter (fun p => p.1 == k')).map Prod.snd)) =
          (firstSeen (g.map Prod.fst) (((k, v) :: rest).map Prod.fst)).map
            (fun k' =>
              (k', (((k, v) :: rest).filter (fun p => p.1 == k')).map Prod.snd)) := by
        rw [List.map_cons, firstSeen, if_pos hk]
        refine (List.map_congr_left (fun k' hk' => ?_)).symm
        have hne : (k == k') = false := by
          have := firstSeen_not_mem _ _ _ hk'
          simp
          intro he
          exact this (he ▸ hk)
        simp [List.filter_cons, hne]
      rw [htail]
    · have hkeys : (insertPage g k v).map Prod.fst = g.map Prod.fst ++ [k] := by
        rw [insertPage_keys g k v hnd, if_neg hk]
      have hdisj : (g.map Prod.fst).Disjoint [k] := by
        intro a ha hb
        rw [List.mem_singleton] at hb
        exact hk (hb ▸ ha)
      have hnd' : ((insertPage g k v).map Prod.fst).Nodup := by
        rw [hkeys]
        exact List.Nodup.append hnd (List.nodup_singleton k) hdisj
      rw [ih (insertPage g k v) hnd']
      rw [hkeys, insertPage_of_not_mem g k v hk]
      have hserw : firstSeen (g.map Prod.fst) (((k, v) :: rest).map Prod.fst) =
          k :: firstSeen (k :: g.map Prod.fst) (rest.map Prod.fst) := by
        rw [List.map_cons, firstSeen, if_neg hk]
      rw [hserw]
      have hmapg : g.map (fun kv =>
            (kv.1, kv.2 ++ (rest.filter (fun p => p.1 == kv.1)).map Prod.snd)) =
          g.map (fun kv => (kv.1, kv.2 ++
            (((k, v) :: rest).filter (fun p => p.1 == kv.1)).map Prod.snd)) := by
        refine List.map_congr_left (fun kv hkv => ?_)
        have hne : (k == kv.1) = false := by
          simp
          intro he
          exact hk (he ▸ List.mem_map_of_mem Prod.fst hkv)
        simp [List.filter_cons, hne]
      have htail : (firstSeen (g.map Prod.fst ++ [k]) (rest.map Prod.fst)).map
            (fun k' => (k', (rest.filter (fun p => p.1 == k')).map Prod.snd)) =
          (firstSeen (k :: g.map Prod.fst) (rest.map Prod.fst)).map
            (fun k' =>
              (k', (((k, v) :: rest).filter (fun p => p.1 == k')).map Prod.snd)) := by
        rw [firstSeen_congr _ (g.map Prod.fst ++ [k]) (k :: g.map Prod.fst)
          (fun x => by simp [or_comm])]
        refine List.map_congr_left (fun k' hk' => ?_)
        have hne : (k == k') = false := by
          have := firstSeen_not_mem _ _ _ hk'
          simp at this ⊢
          intro he
          exact (this.1 he.symm).elim
        simp [List.filter_cons, hne]
      rw [List.map_append, hmapg, htail]
      simp [List.filter_cons, List.append_assoc]

/-- `groupByPart` produces, in first-seen key order, each key paired with
the in-order list of its records. -/
theorem groupByPart_eq {α : Type} (pages : List (String × α)) :
    groupByPart pages =
      (firstSeen [] (pages.map Prod.fst)).map
        (fun k => (k, (pages.filter (fun p => p.1 == k)).map Prod.snd)) := by
  unfold groupByPart
  rw [foldl_insert_spec pages [] (by simp)]
  rfl

/-- C7: page aggregation groups records by part label (empty string is a
valid key), part groups appear in first-seen label order, and within each
part the records keep input order with no sorting or deduplication; in
particular parts `["", "1", "", "2"]` come out in group order
`["", "1", "2"]`. -/
theorem c7_group_by_part :
    (∀ (α : Type) (pages : List (String × α)),
      groupByPart pages =
        (firstSeen [] (pages.map Prod.fst)).map
          (fun k => (k, (pages.filter (fun p => p.1 == k)).map Prod.snd))) ∧
    groupByPart [("", 1), ("1", 2), ("", 3), ("2", 4)] =
      [("", [1, 3]), ("1", [2]), ("2", [4])] ∧
    (groupByPart [("", 1), ("1", 2), ("", 3), ("2", 4)]).map Prod.fst =
      ["", "1", "2"] :=
  ⟨fun _ pages => groupByPart_eq pages, by decide, by decide⟩

/-! ## Lemmas about the table-of-contents builder -/

theorem firstSeen_subset (l : List String) :
    ∀ (seen : List String) (x : String), x ∈ firstSeen seen l → x ∈ l := by
  induction l with
  | nil => intro seen x h; cases h
  | cons k ks ih =>
    intro seen x h
    rw [firstSeen] at h
    by_cases hk : k ∈ seen
    · rw [if_pos hk] at h
      exact List.mem_cons_of_mem _ (ih seen x h)
    · rw [if_neg hk] at h
      rcases List.mem_cons.mp h with rfl | h'
      · exact List.mem_cons_self _ _
      · exact List.mem_cons_of_mem _ (ih (k :: seen) x h')

/-- When no title in the scanned list resolves to the sentinel parent,
the main TOC loop emits nothing and never recurses. -/
theorem tocLoop_no_roots (hier tdata tpm : List (String × String))
    (book : String) (fuel : Nat) (l : List (String × String)) :
    ∀ processed : List String, (∀ t ∈ l, dictGetD hier t.1 "0" ≠ "0") →
      tocLoop hier tdata tpm book fuel l processed = some [] := by
  induction l with
  | nil => intro processed _; rfl
  | cons t rest ih =>
    intro processed h
    rw [tocLoop]
    by_cases hmem : t.1 ∈ processed
    · rw [if_pos hmem]
      exact ih processed (fun t' ht' => h t' (List.mem_cons_of_mem _ ht'))
    · rw [if_neg hmem, if_neg (h t (List.mem_cons_self _ _))]
      exact ih processed (fun t' ht' => h t' (List.mem_cons_of_mem _ ht'))

/-- C1 (amended): on every title hierarchy in which no known title resolves
to the sentinel root — in particular when all titles lie on parent cycles,
such as a self-loop `1→1` or the two-cycle `1→2, 2→1` — the TOC builder
terminates under every recursion budget and returns an empty forest: the
cyclic titles are silently dropped and no error is reported. -/
theorem c1_cycles_silently_dropped (fuel : Nat) (book : String)
    (hier tdata tpm : List (String × String)) (hne : tdata ≠ [])
    (h : ∀ t ∈ tdata, dictGetD hier t.1 "0" ≠ "0") :
    buildTableOfContents fuel true book hier tdata tpm = some (some []) := by
  unfold buildTableOfContents
  rw [if_neg (by simp), if_neg (by simpa using hne),
    tocLoop_no_roots hier tdata tpm book fuel tdata [] h]

/-- C1 counterexample: on the hierarchy `1→0, 2→3, 3→2` (containing the
cycle `2↔3`) the builder returns an ordinary successful forest holding only
the root title; the cyclic titles `B`, `C` are silently dropped and no
error of any kind reaches the caller, contrary to the claim. -/
theorem c1_counterexample :
    buildTableOfContents 3 true "9" [("1", "0"), ("2", "3"), ("3", "2")]
      [("1", "A"), ("2", "B"), ("3", "C")] [] =
      some (some [TocEntry.mk "9/1" "A" []]) := rfl

theorem c1_witness :
    ([("1", "A"), ("2", "B")] : List (String × String)) ≠ [] ∧
      buildTableOfContents 0 true "7" [("1", "2"), ("2", "1")]
        [("1", "A"), ("2", "B")] [] = some (some []) :=
  ⟨by decide,
    c1_cycles_silently_dropped 0 "7" [("1", "2"), ("2", "1")]
      [("1", "A"), ("2", "B")] [] (by decide) (by decide)⟩

/-- C2 counterexample: with hierarchy `1→0, 2→99` (and only titles 1 and 2
known), title `2` — whose parent is explicitly mapped to the unknown id
`99` — does not appear at root level (nor anywhere else) in the forest;
only title 1 is emitted, contrary to the claim. -/
theorem c2_counterexample :
    buildTableOfContents 5 true "7" [("1", "0"), ("2", "99")]
      [("1", "A"), ("2", "B")] [] =
      some (some [TocEntry.mk "7/1" "A" []]) := rfl

/-- C3 (amended): when no title data exists the TOC builder returns the
no-TOC marker (Python `None`), not an empty list, and the assembled
single-page document consequently has no `table_of_contents` key in TOC
mode just as with TOC mode off; the rest of the document (one part with
empty label, one page) is as described. -/
theorem c3_no_title_data_no_toc_key :
    (∀ (fuel : Nat) (gtoc : Bool) (book : String)
        (hier tpm : List (String × String)),
      buildTableOfContents fuel gtoc book hier [] tpm = some none) ∧
    (∀ (fuel : Nat) (gtoc : Bool),
      buildBookJson fuel gtoc "1" "" "" [PageRow.mk "1" "Hello" ""]
          [] [] [] [] =
        some (BookJson.mk "1" []
          [Part.mk "" [PageData.mk "1" "1" "Hello" "" none]] none)) :=
  ⟨fun _ gtoc _ _ _ => by cases gtoc <;> rfl,
   fun _ gtoc => by cases gtoc <;> rfl⟩

/-- C3 counterexample: in TOC mode with no title data the assembled
document does **not** carry an empty `table_of_contents` sequence — the
key is absent (modelled as `none`), refuting the claimed `some []`. -/
theorem c3_counterexample :
    ¬ ((buildBookJson 1 true "1" "" "" [PageRow.mk "1" "Hello" ""]
          [] [] [] []).map BookJson.table_of_contents =
        some (some ([] : List TocEntry))) := fun h => by
  have h' : some (none : Option (List TocEntry)) =
      some (some ([] : List TocEntry)) := h
  simp at h'

/-- C8 (amended): with an empty page-structure lookup (no per-book
structure table) document assembly still succeeds, every part label is the
empty string, and every page's `page_number` equals its own `page_id` (the
lookup default) — not the empty string. -/
theorem c8_empty_structure (fuel : Nat) (gtoc : Bool) (bid af ma : String)
    (content : List PageRow) :
    ∃ d, buildBookJson fuel gtoc bid af ma content [] [] [] [] = some d ∧
      d.table_of_contents = none ∧
      (∀ p ∈ d.parts, p.part = "") ∧
      (∀ p ∈ d.parts, ∀ pg ∈ p.pages, pg.page_number = pg.page_id) := by
  have hbt : buildTableOfContents fuel gtoc bid [] [] [] = some none := by
    cases gtoc <;> rfl
  unfold buildBookJson
  rw [hbt]
  refine ⟨_, rfl, rfl, ?_, ?_⟩
  · intro p hp
    obtain ⟨g, hg, rfl⟩ := List.mem_map.mp hp
    rw [groupByPart_eq] at hg
    obtain ⟨k, hk, rfl⟩ := List.mem_map.mp hg
    have hkeys := firstSeen_subset _ _ _ hk
    rw [List.map_map] at hkeys
    obtain ⟨row, _, hrow⟩ := List.mem_map.mp hkeys
    simpa [partKey, dictFindStruct] using hrow.symm
  · intro p hp pg hpg
    obtain ⟨g, hg, rfl⟩ := List.mem_map.mp hp
    obtain ⟨q, hq, rfl⟩ := List.mem_map.mp hpg
    rw [groupByPart_eq] at hg
    obtain ⟨k, _, rfl⟩ := List.mem_map.mp hg
    obtain ⟨e, he, rfl⟩ := List.mem_map.mp hq
    have hee := List.mem_filter.mp he
    obtain ⟨row, _, hrow⟩ := List.mem_map.mp hee.1
    rw [← hrow]
    simp [clearOriginal, mkPageData, pageNumberOf, dictFindStruct]

theorem c8_witness :
    ∃ d, buildBookJson 1 false "9" "" "" [PageRow.mk "5" "Hello" ""]
        [] [] [] [] = some d ∧
      d.table_of_contents = none ∧
      (∀ p ∈ d.parts, p.part = "") ∧
      (∀ p ∈ d.parts, ∀ pg ∈ p.pages, pg.page_number = pg.page_id) :=
  c8_empty_structure 1 false "9" "" "" [PageRow.mk "5" "Hello" ""]

/-- C8 counterexample: with no structure table, the single page with id
`"5"` is emitted with `page_number = "5"` (its page id), not the empty
string the claim requires. -/
theorem c8_counterexample :
    buildBookJson 1 false "9" "" "" [PageRow.mk "5" "Hello" ""]
        [] [] [] [] =
      some (BookJson.mk "9" []
        [Part.mk "" [PageData.mk "5" "5" "Hello" "" none]] none) ∧
    ("5" : String) ≠ "" := ⟨rfl, by decide⟩

/-- C10: the transient `original_body` field is removed from every page of
every part before the document is returned, for every input. -/
theorem c10_original_body_removed (fuel : Nat) (gtoc : Bool)
    (bid af ma : String) (content : List PageRow)
    (pstruct : List (String × StructEntry))
    (hier tdata tpm : List (String × String)) (d : BookJson)
    (hd : buildBookJson fuel gtoc bid af ma content pstruct hier tdata tpm =
      some d) :
    ∀ p ∈ d.parts, ∀ pg ∈ p.pages, pg.original_body = none := by
  unfold buildBookJson at hd
  cases hbt : buildTableOfContents fuel gtoc bid hier tdata tpm with
  | none => rw [hbt] at hd; cases hd
  | some toc =>
    rw [hbt] at hd
    have hd' := Option.some.inj hd
    subst hd'
    intro p hp pg hpg
    obtain ⟨g, _, rfl⟩ := List.mem_map.mp hp
    obtain ⟨q, _, rfl⟩ := List.mem_map.mp hpg
    rfl

theorem c10_witness :
    (PageData.mk "1" "1" "Hello" "" none).original_body = none :=
  c10_original_body_removed 1 false "1" "" "" [PageRow.mk "1" "Hello" ""]
    [] [] [] []
    (BookJson.mk "1" [] [Part.mk "" [PageData.mk "1" "1" "Hello" "" none]]
      none) rfl
    (Part.mk "" [PageData.mk "1" "1" "Hello" "" none]) (by decide)
    (PageData.mk "1" "1" "Hello" "" none) (by decide)

/-! ## Lemmas about the text normalizer -/

theorem matchesPre_append (p t : List Char) : matchesPre p (p ++ t) = true := by
  induction p with
  | nil => rfl
  | cons a p ih => simp [matchesPre, ih]

theorem matchesPre_eq_append (p : List Char) :
    ∀ l : List Char, matchesPre p l = true → l = p ++ l.drop p.length := by
  induction p with
  | nil => intro l _; rfl
  | cons a p ih =>
    intro l h
    cases l with
    | nil => cases h
    | cons b l' =>
      rw [matchesPre, Bool.and_eq_true] at h
      obtain ⟨hab, hrest⟩ := h
      have hab' : a = b := by simpa using hab
      subst hab'
      simpa [List.cons_append] using ih l' hrest

theorem findSub_decomp (pat : List Char) :
    ∀ (l a b : List Char), findSub pat l = some (a, b) → l = a ++ pat ++ b := by
  intro l
  induction l with
  | nil => intro a b h; cases h
  | cons c rest ih =>
    intro a b h
    rw [findSub] at h
    by_cases hm : matchesPre pat (c :: rest) = true
    · rw [if_pos hm] at h
      have hab : ([] : List Char) = a ∧ (c :: rest).drop pat.length = b := by
        simpa [Prod.ext_iff] using h
      obtain ⟨ha, hb⟩ := hab
      subst ha
      subst hb
      simpa using matchesPre_eq_append pat (c :: rest) hm
    · rw [if_neg hm] at h
      cases hrec : findSub pat rest with
      | none => rw [hrec] at h; cases h
      | some ab =>
        obtain ⟨a', b'⟩ := ab
        rw [hrec] at h
        have hab : c :: a' = a ∧ b' = b := by simpa [Prod.ext_iff] using h
        obtain ⟨ha, hb⟩ := hab
        subst ha
        subst hb
        simpa [List.cons_append, List.append_assoc] using
          congrArg (c :: ·) (ih a' b' hrec)

theorem findSub_first (c : Char) (ps : List Char) :
    ∀ (x y : List Char), c ∉ x →
      findSub (c :: ps) (x ++ (c :: ps) ++ y) = some (x, y) := by
  intro x
  induction x with
  | nil =>
    intro y _
    have hshape : ([] : List Char) ++ (c :: ps) ++ y = c :: (ps ++ y) := by
      simp
    rw [hshape, findSub,
      if_pos (by simpa using matchesPre_append (c :: ps) y)]
    have hdrop : (c :: (ps ++ y)).drop (c :: ps).length = y := by
      rw [List.length_cons, List.drop_succ_cons, List.drop_left]
    rw [hdrop]
  | cons d x' ih =>
    intro y hc
    have hdc : c ≠ d := fun he => hc (he ▸ List.mem_cons_self d x')
    have hx' : c ∉ x' := fun hm' => hc (List.mem_cons_of_mem _ hm')
    have hrec := ih y hx'
    simp only [List.cons_append, List.append_assoc] at hrec ⊢
    have hm : matchesPre (c :: ps) (d :: (x' ++ c :: (ps ++ y))) = false := by
      rw [matchesPre]
      simp [hdc]
    rw [findSub, if_neg (by simp [hm]), hrec]

theorem subScanF_fuel (step : List Char → Option (List Char × List Char)) :
    ∀ (f₁ : Nat) (f₂ : Nat) (l : List Char),
      l.length ≤ f₁ → l.length ≤ f₂ →
      subScanF step f₁ l = subScanF step f₂ l := by
  intro f₁
  induction f₁ with
  | zero =>
    intro f₂ l h₁ _
    have : l = [] := List.length_eq_zero.mp (Nat.le_zero.mp h₁)
    subst this
    cases f₂ <;> rfl
  | succ f₁' ih =>
    intro f₂ l h₁ h₂
    cases l with
    | nil => cases f₂ <;> rfl
    | cons hd rest =>
      obtain ⟨f₂', rfl⟩ : ∃ f₂', f₂ = f₂' + 1 := by
        cases f₂ with
        | zero => simp at h₂
        | succ m => exact ⟨m, rfl⟩
      have hr₁ : rest.length ≤ f₁' := by simpa using h₁
      have hr₂ : rest.length ≤ f₂' := by simpa using h₂
      cases hstep : step (hd :: rest) with
      | none =>
        simp only [subScanF, hstep]
        rw [ih f₂' rest hr₁ hr₂]
      | some pr =>
        obtain ⟨rep, rest'⟩ := pr
        by_cases hlen : rest'.length ≤ rest.length
        · simp only [subScanF, hstep]
          rw [if_pos hlen, if_pos hlen,
            ih f₂' rest' (le_trans hlen hr₁) (le_trans hlen hr₂)]
        · simp only [subScanF, hstep]
          rw [if_neg hlen, if_neg hlen, ih f₂' rest hr₁ hr₂]

theorem reSub_cons_none (step : List Char → Option (List Char × List Char))
    (c : Char) (rest : List Char) (h : step (c :: rest) = none) :
    reSub step (c :: rest) = c :: reSub step rest := by
  show subScanF step (c :: rest).length (c :: rest) = _
  simp only [List.length_cons, subScanF, h]
  rfl

theorem reSub_cons_some (step : List Char → Option (List Char × List Char))
    (c : Char) (rest rep rest' : List Char)
    (h : step (c :: rest) = some (rep, rest'))
    (hl : rest'.length ≤ rest.length) :
    reSub step (c :: rest) = rep ++ reSub step rest' := by
  show subScanF step (c :: rest).length (c :: rest) = _
  simp only [List.length_cons, subScanF, h]
  rw [if_pos hl,
    subScanF_fuel step rest.length rest'.length rest' hl (Nat.le_refl _)]
  rfl

theorem reSub_eq_self (step : List Char → Option (List Char × List Char)) :
    ∀ l : List Char,
      (∀ c rest, (c :: rest) <:+ l → step (c :: rest) = none) →
      reSub step l = l := by
  intro l
  induction l with
  | nil => intro _; rfl
  | cons c rest ih =>
    intro h
    rw [reSub_cons_none step c rest (h c rest (List.suffix_refl _)),
      ih (fun c' rest' hs =>
        h c' rest' (hs.trans (List.suffix_cons c rest)))]

/-- No suffix of `l` starts with the literal `pat` (so a scanner whose
matches all start with `pat` never fires inside `l`). -/
def NoOccur (pat l : List Char) : Prop :=
  ∀ t, t <:+ l → t ≠ [] → matchesPre pat t = false

theorem noOccur_iff_tails (pat l : List Char) :
    NoOccur pat l ↔ ∀ t ∈ l.tails, t ≠ [] → matchesPre pat t = false := by
  constructor
  · intro h t ht
    exact h t ((List.mem_tails t l).mp ht)
  · intro h t ht
    exact h t ((List.mem_tails t l).mpr ht)

theorem noOccur_nil (pat : List Char) : NoOccur pat [] := by
  intro t ht hne
  rw [List.suffix_nil] at ht
  exact absurd ht hne

theorem suffix_append_cases {α : Type} (x : List α) :
    ∀ (y t : List α), t <:+ x ++ y →
      t <:+ y ∨ ∃ t', t' <:+ x ∧ t' ≠ [] ∧ t = t' ++ y := by
  induction x with
  | nil => intro y t ht; exact Or.inl (by simpa using ht)
  | cons a x' ih =>
    intro y t ht
    rw [List.cons_append, List.suffix_cons_iff] at ht
    rcases ht with rfl | ht'
    · exact Or.inr ⟨a :: x', List.suffix_refl _, by simp, by simp⟩
    · rcases ih y t ht' with h | ⟨t', ht'x, hne, rfl⟩
      · exact Or.inl h
      · exact Or.inr ⟨t', ht'x.trans (List.suffix_cons a x'), hne, rfl⟩

theorem noOccur_append_of_not_mem (c : Char) (ps x y : List Char)
    (hx : c ∉ x) (hy : NoOccur (c :: ps) y) : NoOccur (c :: ps) (x ++ y) := by
  intro t ht hne
  rcases suffix_append_cases x y t ht with h | ⟨t', ht'x, hne', rfl⟩
  · exact hy t h hne
  · cases t' with
    | nil => exact absurd rfl hne'
    | cons d t'' =>
      have hdc : c ≠ d := fun he =>
        hx (he ▸ ht'x.subset (List.mem_cons_self d t''))
      rw [List.cons_append, matchesPre]
      simp [hdc]

theorem noOccur_append_head_only (c : Char) (ps x y : List Char)
    (hx1 : ∀ t ∈ x.tails, t ≠ [] → t.head? = some c → t = x)
    (hx2 : matchesPre (c :: ps) (x ++ y) = false)
    (hy : NoOccur (c :: ps) y) : NoOccur (c :: ps) (x ++ y) := by
  intro t ht hne
  rcases suffix_append_cases x y t ht with h | ⟨t', ht'x, hne', rfl⟩
  · exact hy t h hne
  · cases t' with
    | nil => exact absurd rfl hne'
    | cons d t'' =>
      by_cases hdc : d = c
      · subst hdc
        have := hx1 (d :: t'') ((List.mem_tails _ _).mpr ht'x) (by simp) rfl
        rw [this]
        exact hx2
      · rw [List.cons_append, matchesPre]
        simp only [Bool.and_eq_false_iff, beq_eq_false_iff_ne, ne_eq]
        exact Or.inl (fun he => hdc he.symm)

theorem reSub_eq_self_of_noOccur
    (step : List Char → Option (List Char × List Char)) (pat : List Char)
    (hstep : ∀ l, step l ≠ none → matchesPre pat l = true)
    (l : List Char) (h : NoOccur pat l) : reSub step l = l := by
  refine reSub_eq_self step l (fun c rest hs => ?_)
  by_contra hne
  have := hstep (c :: rest) hne
  rw [h (c :: rest) hs (by simp)] at this
  cases this

theorem imgStep_matches (l : List Char) (h : imgStep l ≠ none) :
    matchesPre "<img".data l = true := by
  by_contra hm
  rw [Bool.not_eq_true] at hm
  exact h (by simp [imgStep, hm])

theorem titleSpanStep_matches (hier : List (String × String)) (l : List Char)
    (h : titleSpanStep hier l ≠ none) :
    matchesPre "<span data-type=".data l = true := by
  by_contra hm
  rw [Bool.not_eq_true] at hm
  exact h (by simp [titleSpanStep, hm])

theorem otherSpanStep_matches (l : List Char) (h : otherSpanStep l ≠ none) :
    matchesPre "<span".data l = true := by
  by_contra hm
  rw [Bool.not_eq_true] at hm
  exact h (by simp [otherSpanStep, hm])

theorem titleTagStep_matches (l : List Char) (h : titleTagStep l ≠ none) :
    matchesPre "<title".data l = true := by
  by_contra hm
  rw [Bool.not_eq_true] at hm
  exact h (by simp [titleTagStep, hm])

theorem anyTagStep_matches (l : List Char) (h : anyTagStep l ≠ none) :
    matchesPre ['<'] l = true := by
  cases l with
  | nil => exact absurd rfl h
  | cons c rest =>
    by_cases hc : c = '<'
    · subst hc
      simp [matchesPre]
    · exact absurd (by simp [anyTagStep, hc]) h

theorem digit_notin (ds : List Char) (h : ∀ c ∈ ds, c.isDigit = true)
    (d : Char) (hd : d.isDigit = false) : d ∉ ds := by
  intro hm
  rw [h d hm] at hd
  cases hd

theorem map_cr_id (l : List Char) (h : ∀ c ∈ l, c ≠ '\r') :
    l.map (fun c => if c == '\r' then '\n' else c) = l := by
  have hcong : l.map (fun c => if c == '\r' then '\n' else c) = l.map id :=
    List.map_congr_left (fun c hc => by simp [h c hc])
  simpa using hcong

theorem takeWhile_digits_append (ds : List Char)
    (h : ∀ c ∈ ds, c.isDigit = true) (b : Char) (hb : b.isDigit = false)
    (r : List Char) :
    (ds ++ b :: r).takeWhile Char.isDigit = ds := by
  induction ds with
  | nil => simp [List.takeWhile_cons, hb]
  | cons c t ih =>
    rw [List.cons_append, List.takeWhile_cons,
      h c (List.mem_cons_self _ _)]
    simp only [if_true]
    rw [ih (fun c' hc' => h c' (List.mem_cons_of_mem _ hc'))]

/-- The `<img` removal pass leaves the heading-span string unchanged: no
suffix of it starts with `<img`. -/
theorem img_pass (ds text : List Char) (hdig : ∀ c ∈ ds, c.isDigit = true)
    (htext : '<' ∉ text) :
    reSub imgStep ("<span data-type=\"title\" id=toc-".data ++
        (ds ++ ('>' :: (text ++ "</span>".data)))) =
      "<span data-type=\"title\" id=toc-".data ++
        (ds ++ ('>' :: (text ++ "</span>".data))) := by
  refine reSub_eq_self_of_noOccur imgStep "<img".data imgStep_matches _ ?_
  refine noOccur_append_head_only '<' "img".data _ _ (by decide) rfl ?_
  refine noOccur_append_of_not_mem '<' "img".data ds _
    (digit_notin ds hdig '<' (by decide)) ?_
  show NoOccur ('<' :: "img".data) (['>'] ++ (text ++ "</span>".data))
  refine noOccur_append_of_not_mem '<' "img".data ['>'] _ (by decide) ?_
  refine noOccur_append_of_not_mem '<' "img".data text _ htext ?_
  exact (noOccur_iff_tails _ _).mpr (by decide)

/-- Evaluation of the title-span rewriting step at the head of a heading
span whose inner text contains no `<`. -/
theorem titleSpanStep_eval (hier : List (String × String)) (ds text : List Char)
    (hne : ds ≠ []) (hdig : ∀ c ∈ ds, c.isDigit = true) (htext : '<' ∉ text) :
    titleSpanStep hier
      ("<span data-type=\"title\" id=toc-".data ++
        (ds ++ ('>' :: (text ++ "</span>".data)))) =
    some ("<title id=".data ++ ds ++ " parent=".data ++
      (dictGetD hier (String.mk ds) "0").data ++ ['>'] ++ text ++
        "</title>".data, []) := by
  have hsplit : "<span data-type=\"title\" id=toc-".data ++
      (ds ++ ('>' :: (text ++ "</span>".data)))
      = "<span data-type=".data ++ ('"' :: ("title".data ++ ('"' ::
          (" id=toc-".data ++ (ds ++ ('>' :: (text ++ "</span>".data))))))) :=
    rfl
  rw [hsplit]
  unfold titleSpanStep
  rw [if_pos (matchesPre_append "<span data-type=".data _)]
  have hd16 : ("<span data-type=".data ++ ('"' :: ("title".data ++ ('"' ::
      (" id=toc-".data ++ (ds ++ ('>' :: (text ++ "</span>".data)))))))).drop 16
      = '"' :: ("title".data ++ ('"' ::
          (" id=toc-".data ++ (ds ++ ('>' :: (text ++ "</span>".data)))))) :=
    rfl
  rw [hd16]
  dsimp only
  rw [if_pos (by
    simp only [Bool.and_eq_true]
    exact ⟨by decide, matchesPre_append "title".data _⟩)]
  have hd5 : ("title".data ++ ('"' ::
      (" id=toc-".data ++ (ds ++ ('>' :: (text ++ "</span>".data)))))).drop 5
      = '"' :: (" id=toc-".data ++ (ds ++ ('>' :: (text ++ "</span>".data)))) :=
    rfl
  rw [hd5]
  dsimp only
  rw [if_pos (by
    simp only [Bool.and_eq_true]
    exact ⟨by decide, matchesPre_append " id=toc-".data _⟩)]
  have hd8 : (" id=toc-".data ++ (ds ++ ('>' :: (text ++ "</span>".data)))).drop 8
      = ds ++ ('>' :: (text ++ "</span>".data)) := rfl
  rw [hd8]
  have htw : (ds ++ ('>' :: (text ++ "</span>".data))).takeWhile Char.isDigit
      = ds := takeWhile_digits_append ds hdig '>' (by decide) _
  rw [htw]
  rw [if_neg (by simpa [List.isEmpty_iff] using hne)]
  have hdl : (ds ++ ('>' :: (text ++ "</span>".data))).drop ds.length
      = '>' :: (text ++ "</span>".data) := List.drop_left _ _
  rw [hdl]
  dsimp only
  rw [if_pos rfl]
  have hfs : findSub "</span>".data (text ++ "</span>".data)
      = some (text, []) := by
    have := findSub_first '<' "/span>".data text [] htext
    simpa using this
  rw [hfs]

/-- The title-span rewriting pass turns the whole heading span into the
intermediate `<title ...>` element. -/
theorem titleSpan_pass (hier : List (String × String)) (ds text : List Char)
    (hne : ds ≠ []) (hdig : ∀ c ∈ ds, c.isDigit = true) (htext : '<' ∉ text) :
    reSub (titleSpanStep hier)
      ("<span data-type=\"title\" id=toc-".data ++
        (ds ++ ('>' :: (text ++ "</span>".data)))) =
    "<title id=".data ++ ds ++ " parent=".data ++
      (dictGetD hier (String.mk ds) "0").data ++ ['>'] ++ text ++
      "</title>".data := by
  have heval := titleSpanStep_eval hier ds text hne hdig htext
  have hcons : "<span data-type=\"title\" id=toc-".data ++
      (ds ++ ('>' :: (text ++ "</span>".data)))
      = '<' :: ("span data-type=\"title\" id=toc-".data ++
          (ds ++ ('>' :: (text ++ "</span>".data)))) := rfl
  rw [hcons] at heval ⊢
  rw [reSub_cons_some (titleSpanStep hier) '<' _ _ [] heval (by simp)]
  rw [show reSub (titleSpanStep hier) [] = [] from rfl, List.append_nil]

/-- The plain-span removal pass leaves the rewritten `<title ...>` element
unchanged: no suffix of it starts with `<span`. -/
theorem otherSpan_pass (ds pp text : List Char)
    (hdig : ∀ c ∈ ds, c.isDigit = true) (hp : '<' ∉ pp)
    (htext : '<' ∉ text) :
    reSub otherSpanStep
      ("<title id=".data ++ (ds ++ (" parent=".data ++
        (pp ++ ('>' :: (text ++ "</title>".data)))))) =
    "<title id=".data ++ (ds ++ (" parent=".data ++
      (pp ++ ('>' :: (text ++ "</title>".data))))) := by
  refine reSub_eq_self_of_noOccur otherSpanStep "<span".data
    otherSpanStep_matches _ ?_
  refine noOccur_append_head_only '<' "span".data _ _ (by decide) rfl ?_
  refine noOccur_append_of_not_mem '<' "span".data ds _
    (digit_notin ds hdig '<' (by decide)) ?_
  refine noOccur_append_of_not_mem '<' "span".data " parent=".data _
    (by decide) ?_
  refine noOccur_append_of_not_mem '<' "span".data pp _ hp ?_
  show NoOccur _ (['>'] ++ (text ++ "</title>".data))
  refine noOccur_append_of_not_mem '<' "span".data ['>'] _ (by decide) ?_
  refine noOccur_append_of_not_mem '<' "span".data text _ htext ?_
  exact (noOccur_iff_tails _ _).mpr (by decide)

/-- Evaluation of the TOC-mode title-tag stripping step at the head of the
rewritten element. -/
theorem titleTagStep_eval (ds pp text : List Char)
    (hdig : ∀ c ∈ ds, c.isDigit = true) (hpp : '>' ∉ pp)
    (htext : '<' ∉ text) :
    titleTagStep
      ("<title id=".data ++ (ds ++ (" parent=".data ++
        (pp ++ ('>' :: (text ++ "</title>".data)))))) =
    some (text, []) := by
  have hsplit : "<title id=".data ++ (ds ++ (" parent=".data ++
      (pp ++ ('>' :: (text ++ "</title>".data)))))
      = "<title".data ++ (" id=".data ++ (ds ++ (" parent=".data ++
          (pp ++ ('>' :: (text ++ "</title>".data)))))) := rfl
  rw [hsplit]
  unfold titleTagStep
  rw [if_pos (matchesPre_append "<title".data _)]
  have hd6 : ("<title".data ++ (" id=".data ++ (ds ++ (" parent=".data ++
      (pp ++ ('>' :: (text ++ "</title>".data))))))).drop 6
      = " id=".data ++ (ds ++ (" parent=".data ++
          (pp ++ ('>' :: (text ++ "</title>".data))))) := rfl
  rw [hd6]
  have hx : '>' ∉ " id=".data ++ (ds ++ (" parent=".data ++ pp)) := by
    intro hm
    rcases List.mem_append.mp hm with h | h
    · exact absurd h (by decide)
    rcases List.mem_append.mp h with h | h
    · exact digit_notin ds hdig '>' (by decide) h
    rcases List.mem_append.mp h with h | h
    · exact absurd h (by decide)
    · exact hpp h
  have hfs1 : findSub ['>'] (" id=".data ++ (ds ++ (" parent=".data ++
      (pp ++ ('>' :: (text ++ "</title>".data))))))
      = some (" id=".data ++ (ds ++ (" parent=".data ++ pp)),
          text ++ "</title>".data) := by
    have hfirst := findSub_first '>' []
      (" id=".data ++ (ds ++ (" parent=".data ++ pp)))
      (text ++ "</title>".data) hx
    simpa [List.append_assoc] using hfirst
  rw [hfs1]
  dsimp only
  have hfs2 : findSub "</title>".data (text ++ "</title>".data)
      = some (text, []) := by
    have hfirst := findSub_first '<' "/title>".data text [] htext
    simpa using hfirst
  rw [hfs2]

/-- The TOC-mode title-tag pass strips the rewritten element down to its
inner text. -/
theorem titleTag_pass (ds pp text : List Char)
    (hdig : ∀ c ∈ ds, c.isDigit = true) (hpp : '>' ∉ pp)
    (htext : '<' ∉ text) :
    reSub titleTagStep
      ("<title id=".data ++ (ds ++ (" parent=".data ++
        (pp ++ ('>' :: (text ++ "</title>".data)))))) = text := by
  have heval := titleTagStep_eval ds pp text hdig hpp htext
  have hcons : "<title id=".data ++ (ds ++ (" parent=".data ++
      (pp ++ ('>' :: (text ++ "</title>".data)))))
      = '<' :: ("title id=".data ++ (ds ++ (" parent=".data ++
          (pp ++ ('>' :: (text ++ "</title>".data)))))) := rfl
  rw [hcons] at heval ⊢
  rw [reSub_cons_some titleTagStep '<' _ _ [] heval (by simp)]
  rw [show reSub titleTagStep [] = [] from rfl, List.append_nil]

/-- The final catch-all tag removal pass is the identity on text that
contains no `<`. -/
theorem anyTag_pass (text : List Char) (htext : '<' ∉ text) :
    reSub anyTagStep text = text := by
  refine reSub_eq_self_of_noOccur anyTagStep ['<'] anyTagStep_matches _ ?_
  have hno := noOccur_append_of_not_mem '<' [] text [] htext (noOccur_nil _)
  rw [List.append_nil] at hno
  exact hno

/-- C9: in TOC mode, normalizing a heading span
`<span data-type="title" id=toc-N>TEXT</span>` yields exactly its plain
inner text.  `ds` is the (non-empty, all-digit) id `N`; the inner text and
the resolved parent value are tag-free, which formalizes "plain inner text"
(a text containing markup would itself be stripped further). -/
theorem c9_heading_roundtrip (hier : List (String × String)) (ds : List Char)
    (text : String) (hne : ds ≠ [])
    (hdig : ∀ c ∈ ds, c.isDigit = true)
    (htext : ∀ c ∈ text.data, c ≠ '<' ∧ c ≠ '>' ∧ c ≠ '\r')
    (hpar : ∀ c ∈ (dictGetD hier (String.mk ds) "0").data,
      c ≠ '<' ∧ c ≠ '>') :
    processText true hier
      ("<span data-type=\"title\" id=toc-" ++ String.mk ds ++ ">" ++ text ++
        "</span>") = text := by
  have htlt : '<' ∉ text.data := fun hm => (htext _ hm).1 rfl
  have hplt : '<' ∉ (dictGetD hier (String.mk ds) "0").data :=
    fun hm => (hpar _ hm).1 rfl
  have hpgt : '>' ∉ (dictGetD hier (String.mk ds) "0").data :=
    fun hm => (hpar _ hm).2 rfl
  have hdata : ("<span data-type=\"title\" id=toc-" ++ String.mk ds ++ ">" ++
      text ++ "</span>").data
      = "<span data-type=\"title\" id=toc-".data ++
        (ds ++ ('>' :: (text.data ++ "</span>".data))) := by
    simp [String.data_append, List.append_assoc]
  have hne0 : ("<span data-type=\"title\" id=toc-" ++ String.mk ds ++ ">" ++
      text ++ "</span>") ≠ "" := by
    rw [Ne, String.ext_iff, hdata]
    simp
  have hcr : ∀ c ∈ "<span data-type=\"title\" id=toc-".data ++
      (ds ++ ('>' :: (text.data ++ "</span>".data))), c ≠ '\r' := by
    intro c hc
    rcases List.mem_append.mp hc with h | h
    · exact (by decide : ∀ c ∈ "<span data-type=\"title\" id=toc-".data,
        c ≠ '\r') c h
    rcases List.mem_append.mp h with h | h
    · intro he
      have hd := hdig c h
      rw [he] at hd
      exact absurd hd (by decide)
    rcases List.mem_cons.mp h with rfl | h
    · decide
    rcases List.mem_append.mp h with h | h
    · exact (htext c h).2.2
    · exact (by decide : ∀ c ∈ "</span>".data, c ≠ '\r') c h
  unfold processText
  rw [if_neg hne0, hdata]
  dsimp only
  rw [map_cr_id _ hcr, img_pass ds text.data hdig htlt,
    titleSpan_pass hier ds text.data hne hdig htlt]
  have hTT : "<title id=".data ++ ds ++ " parent=".data ++
      (dictGetD hier (String.mk ds) "0").data ++ ['>'] ++ text.data ++
      "</title>".data
      = "<title id=".data ++ (ds ++ (" parent=".data ++
          ((dictGetD hier (String.mk ds) "0").data ++
            ('>' :: (text.data ++ "</title>".data))))) := by
    simp [List.append_assoc]
  rw [hTT]
  rw [if_pos rfl, otherSpan_pass ds _ text.data hdig hplt htlt,
    titleTag_pass ds _ text.data hdig hpgt htlt,
    anyTag_pass text.data htlt]

theorem c9_witness :
    processText true [("12", "3")]
      "<span data-type=\"title\" id=toc-12>Chapter One</span>" =
      "Chapter One" :=
  c9_heading_roundtrip [("12", "3")] ['1', '2'] "Chapter One" (by decide)
    (by decide) (by decide) (by decide)

/-! ## Origin of every node in the built table of contents

Every heading text appearing anywhere in the forest produced by
`_build_table_of_contents` belongs to a known title whose resolved parent
is either the sentinel `"0"` or the id of another known title: the
children collector only ever descends from known titles, so a title whose
parent is an unknown id is collected by nothing. -/

theorem fch_aux (hier tdata tpm : List (String × String)) (book : String)
    (f : Nat) (pid : String) :
    ∀ (l : List (String × String)) (items : List TocEntry),
      l.foldr
        (fun t acc =>
          match acc with
          | none => none
          | some rest =>
            if dictGetD hier t.1 "0" = pid then
              match fch hier tdata tpm book f t.1 with
              | none => none
              | some grand =>
                some (TocEntry.mk (book ++ "/" ++ dictGetD tpm t.1 "1")
                        (pyStrip t.2) grand :: rest)
            else some rest)
        (some []) = some items →
      ∀ s ∈ listTitles items,
        ∃ t ∈ l, dictGetD hier t.1 "0" = pid ∧
          (s = pyStrip t.2 ∨
            ∃ grand, fch hier tdata tpm book f t.1 = some grand ∧
              s ∈ listTitles grand) := by
  intro l
  induction l with
  | nil =>
    intro items h s hs
    obtain rfl : ([] : List TocEntry) = items := by simpa using h
    simp [listTitles] at hs
  | cons t l ih =>
    intro items h s hs
    rw [List.foldr_cons] at h
    cases hacc : l.foldr
        (fun t acc =>
          match acc with
          | none => none
          | some rest =>
            if dictGetD hier t.1 "0" = pid then
              match fch hier tdata tpm book f t.1 with
              | none => none
              | some grand =>
                some (TocEntry.mk (book ++ "/" ++ dictGetD tpm t.1 "1")
                        (pyStrip t.2) grand :: rest)
            else some rest)
        (some []) with
    | none => rw [hacc] at h; cases h
    | some rest =>
      rw [hacc] at h
      dsimp only at h
      by_cases hp : dictGetD hier t.1 "0" = pid
      · rw [if_pos hp] at h
        cases hg : fch hier tdata tpm book f t.1 with
        | none => rw [hg] at h; cases h
        | some grand =>
          rw [hg] at h
          obtain rfl : TocEntry.mk (book ++ "/" ++ dictGetD tpm t.1 "1")
              (pyStrip t.2) grand :: rest = items := by simpa using h
          rw [listTitles, titlesOf] at hs
          rcases List.mem_append.mp hs with hs' | hs'
          · rcases List.mem_cons.mp hs' with rfl | hs''
            · exact ⟨t, List.mem_cons_self _ _, hp, Or.inl rfl⟩
            · exact ⟨t, List.mem_cons_self _ _, hp,
                Or.inr ⟨grand, hg, hs''⟩⟩
          · obtain ⟨t', ht', hrest⟩ := ih rest hacc s hs'
            exact ⟨t', List.mem_cons_of_mem _ ht', hrest⟩
      · rw [if_neg hp] at h
        obtain rfl : rest = items := by simpa using h
        obtain ⟨t', ht', hrest⟩ := ih _ hacc s hs
        exact ⟨t', List.mem_cons_of_mem _ ht', hrest⟩

theorem fch_titles (hier tdata tpm : List (String × String)) (book : String) :
    ∀ (fuel : Nat) (pid : String) (items : List TocEntry),
      (∃ tp ∈ tdata, tp.1 = pid) →
      fch hier tdata tpm book fuel pid = some items →
      ∀ s ∈ listTitles items,
        ∃ t ∈ tdata, s = pyStrip t.2 ∧
          (dictGetD hier t.1 "0" = "0" ∨
            ∃ t' ∈ tdata, dictGetD hier t.1 "0" = t'.1) := by
  intro fuel
  induction fuel with
  | zero => intro pid items _ h; rw [fch] at h; cases h
  | succ f ihf =>
    intro pid items hpid h s hs
    rw [fch] at h
    obtain ⟨t, htl, hp, hcase⟩ :=
      fch_aux hier tdata tpm book f pid tdata items h s hs
    rcases hcase with rfl | ⟨grand, hg, hsg⟩
    · obtain ⟨tp, htp, rfl⟩ := hpid
      exact ⟨t, htl, rfl, Or.inr ⟨tp, htp, hp⟩⟩
    · exact ihf t.1 grand ⟨t, htl, rfl⟩ hg s hsg

theorem tocLoop_titles (hier tdata tpm : List (String × String))
    (book : String) (fuel : Nat) :
    ∀ (l : List (String × String)) (processed : List String)
      (items : List TocEntry),
      (∀ t ∈ l, t ∈ tdata) →
      tocLoop hier tdata tpm book fuel l processed = some items →
      ∀ s ∈ listTitles items,
        ∃ t ∈ tdata, s = pyStrip t.2 ∧
          (dictGetD hier t.1 "0" = "0" ∨
            ∃ t' ∈ tdata, dictGetD hier t.1 "0" = t'.1) := by
  intro l
  induction l with
  | nil =>
    intro processed items _ h s hs
    obtain rfl : ([] : List TocEntry) = items := by simpa [tocLoop] using h
    simp [listTitles] at hs
  | cons t rest ih =>
    intro processed items hsub h s hs
    rw [tocLoop] at h
    by_cases hmem : t.1 ∈ processed
    · rw [if_pos hmem] at h
      exact ih processed items
        (fun t' ht' => hsub t' (List.mem_cons_of_mem _ ht')) h s hs
    · rw [if_neg hmem] at h
      by_cases hroot : dictGetD hier t.1 "0" = "0"
      · rw [if_pos hroot] at h
        cases hfc : fch hier tdata tpm book fuel t.1 with
        | none => rw [hfc] at h; cases h
        | some children =>
          rw [hfc] at h
          cases hmc : mcp hier fuel t.1 (setAdd processed t.1) with
          | none => rw [hmc] at h; simp at h
          | some processed' =>
            rw [hmc] at h
            dsimp only at h
            cases hrec : tocLoop hier tdata tpm book fuel rest processed' with
            | none => rw [hrec] at h; cases h
            | some more =>
              rw [hrec] at h
              obtain rfl : TocEntry.mk (book ++ "/" ++ dictGetD tpm t.1 "1")
                  (pyStrip t.2) children :: more = items := by simpa using h
              rw [listTitles, titlesOf] at hs
              rcases List.mem_append.mp hs with hs' | hs'
              · rcases List.mem_cons.mp hs' with rfl | hs''
                · exact ⟨t, hsub t (List.mem_cons_self _ _), rfl,
                    Or.inl hroot⟩
                · exact fch_titles hier tdata tpm book fuel t.1 children
                    ⟨t, hsub t (List.mem_cons_self _ _), rfl⟩ hfc s hs''
              · exact ih processed' more
                  (fun t' ht' => hsub t' (List.mem_cons_of_mem _ ht'))
                  hrec s hs'
      · rw [if_neg hroot] at h
        exact ih processed items
          (fun t' ht' => hsub t' (List.mem_cons_of_mem _ ht')) h s hs

/-- Every heading text in a built table of contents belongs to a known
title whose resolved parent is the sentinel or another known title id. -/
theorem buildToc_titles (fuel : Nat) (book : String)
    (hier tdata tpm : List (String × String)) (items : List TocEntry)
    (h : buildTableOfContents fuel true book hier tdata tpm =
      some (some items)) :
    ∀ s ∈ listTitles items,
      ∃ t ∈ tdata, s = pyStrip t.2 ∧
        (dictGetD hier t.1 "0" = "0" ∨
          ∃ t' ∈ tdata, dictGetD hier t.1 "0" = t'.1) := by
  unfold buildTableOfContents at h
  rw [if_neg (by simp)] at h
  by_cases hemp : tdata.isEmpty = true
  · rw [if_pos hemp] at h
    cases h
  · rw [if_neg hemp] at h
    cases htl : tocLoop hier tdata tpm book fuel tdata [] with
    | none => rw [htl] at h; cases h
    | some its =>
      rw [htl] at h
      obtain rfl : its = items := by simpa using h
      exact tocLoop_titles hier tdata tpm book fuel tdata [] its
        (fun t ht => ht) htl

/-- C2 (amended): for every title hierarchy, title data and page mapping,
a title whose parent_id is explicitly mapped to an id that is neither the
sentinel `"0"` nor present among the known title ids is omitted from the
resulting forest entirely — its heading text (identifying it, being
distinct from every other title's) appears neither at root level nor
anywhere deeper. -/
theorem c2_unknown_parent_omitted (fuel : Nat) (book : String)
    (hier tdata tpm : List (String × String)) (items : List TocEntry)
    (hrun : buildTableOfContents fuel true book hier tdata tpm =
      some (some items))
    (o otext : String) (_ho : (o, otext) ∈ tdata)
    (hnot0 : dictGetD hier o "0" ≠ "0")
    (hunknown : ∀ t ∈ tdata, dictGetD hier o "0" ≠ t.1)
    (huniq : ∀ t ∈ tdata, t.1 ≠ o → pyStrip t.2 ≠ pyStrip otext) :
    pyStrip otext ∉ listTitles items := by
  intro hmem
  obtain ⟨t, ht, heq, hpar⟩ :=
    buildToc_titles fuel book hier tdata tpm items hrun (pyStrip otext) hmem
  have hto : t.1 = o := by
    by_contra hne
    exact huniq t ht hne heq.symm
  rcases hpar with h0 | ⟨t', ht', hpp⟩
  · rw [hto] at h0
    exact hnot0 h0
  · rw [hto] at hpp
    exact hunknown t' ht' hpp

theorem c2_unknown_parent_witness :
    pyStrip "B" ∉ listTitles [TocEntry.mk "7/1" "A" []] :=
  c2_unknown_parent_omitted 5 "7" [("1", "0"), ("2", "99")]
    [("1", "A"), ("2", "B")] [] [TocEntry.mk "7/1" "A" []] rfl
    "2" "B" (by decide) (by decide) (by decide) (by decide)

end Shamela
